import Mathlib

/-!
Verification of the distributed incremental-PCA core in
`btx/processing/ipca.py`.

Numeric arrays are embedded over `ℚ` (exact arithmetic standing for the
floating-point values).  A `d × m` block of observations is a list of `d`
feature rows, each a list of the `m` per-observation values.  The MPI
collectives are embedded at the level of their shape contracts (the MPI
standard requires the per-rank send count to equal the declared per-rank
receive count), and the dense linear-algebra kernels (`np.linalg.qr`,
`np.linalg.svd`) are embedded by their shape behaviour plus, for the
orthonormality development, their documented contracts taken as hypotheses.
-/

/-- Row mean: embeds `np.mean(imgs, axis=1)` for one feature row. -/
def mean (xs : List ℚ) : ℚ := xs.sum / xs.length

/-- Sum of squared deviations from a center `c`. -/
def ssqAbout (c : ℚ) (xs : List ℚ) : ℚ := (xs.map (fun x => (x - c) ^ 2)).sum

/-- Embeds `np.var(xs, ddof=1)`: sample variance with 1 degree of freedom. -/
def npvar (xs : List ℚ) : ℚ := ssqAbout (mean xs) xs / ((xs.length : ℚ) - 1)

/-- Number of columns of a block stored as a list of feature rows
(`X.shape[1]` for a rectangular block). -/
def ncols (X : List (List ℚ)) : ℕ :=
  match X with
  | [] => 0
  | r :: _ => r.length

/-- Embeds `calculate_sample_mean_and_variance` (ipca.py lines 288-312):
per-row mean, and per-row sample variance with 1 dof when `m > 1`, else the
zero vector. -/
def calculate_sample_mean_and_variance (X : List (List ℚ)) : List ℚ × List ℚ :=
  (X.map mean, if 1 < ncols X then X.map npvar else X.map fun _ => 0)

/-- Four-list pointwise combination, used to embed elementwise numpy
expressions over four aligned `(d, 1)` arrays. -/
def zip4 (f : ℚ → ℚ → ℚ → ℚ → ℚ) : List ℚ → List ℚ → List ℚ → List ℚ → List ℚ
  | a :: as, b :: bs, c :: cs, e :: es => f a b c e :: zip4 f as bs cs es
  | _, _, _, _ => []

/-- Embeds `update_sample_mean` (ipca.py lines 314-339):
`mu_m` if `n == 0`, else `(1/(n+m)) * (n*mu_n + m*mu_m)` elementwise. -/
def update_sample_mean (mu_n mu_m : List ℚ) (n m : ℕ) : List ℚ :=
  if n = 0 then mu_m
  else List.zipWith (fun a b => (1 / ((n : ℚ) + (m : ℚ))) * ((n : ℚ) * a + (m : ℚ) * b)) mu_n mu_m

/-- Embeds `update_sample_variance` (ipca.py lines 341-370):
`s_m` if `n == 0`, else Chan's pooled-variance formula
`(((n-1)*s_n + (m-1)*s_m) + (n*m*(mu_n - mu_m)^2)/(n+m)) / (n+m-1)`
elementwise. -/
def update_sample_variance (s_n s_m mu_n mu_m : List ℚ) (n m : ℕ) : List ℚ :=
  if n = 0 then s_m
  else zip4 (fun a b c e =>
      ((((n : ℚ) - 1) * a + ((m : ℚ) - 1) * b) + ((n : ℚ) * (m : ℚ) * (c - e) ^ 2) / ((n : ℚ) + (m : ℚ)))
        / ((n : ℚ) + (m : ℚ) - 1))
    s_n s_m mu_n mu_m

/-- Per-rank row count computed in the first loop of `distribute_indices`
(ipca.py lines 84-90): `d // size`, plus one for the first `d % size` ranks. -/
def num_per_rank (d size r : ℕ) : ℕ := d / size + if r < d % size then 1 else 0

/-- The array of per-rank counts built by the first loop of
`distribute_indices`. -/
def split_counts_src (d size : ℕ) : List ℕ :=
  (List.range size).map (num_per_rank d size)

/-- Embeds `np.append(np.array([0]), np.cumsum(split_indices))`
(ipca.py line 92): `scanl (+) 0` is exactly the cumulative sums with a
leading 0. -/
def split_indices (d size : ℕ) : List ℕ :=
  (split_counts_src d size).scanl (· + ·) 0

/-- Embeds `self.start_indices = split_indices[:-1]` (ipca.py line 94). -/
def start_indices (d size r : ℕ) : ℕ := (split_indices d size).getD r 0

/-- Embeds `self.split_counts[i] = split_indices[i+1] - split_indices[i]`
(ipca.py lines 95-98). -/
def split_counts (d size r : ℕ) : ℕ :=
  (split_indices d size).getD (r + 1) 0 - (split_indices d size).getD r 0

/-- The model state mutated by `update_model`: coordinator-owned `mu` and
`total_variance`, the local basis `U`, the spectrum `S`, and the
observation count `n` (ipca.py `IPCA.__init__`). -/
structure IState where
  mu : List ℚ
  total_variance : List ℚ
  U : List (List ℚ)
  S : List (List ℚ)
  n : ℕ
  deriving DecidableEq

/-- Scalar times vector, embedding `c * arr` for a `(d, 1)` array. -/
def scaleV (c : ℚ) (v : List ℚ) : List ℚ := v.map (fun a => c * a)

/-- numpy broadcasting of a binary elementwise operation over two
`(len, 1)` column vectors: equal lengths operate pointwise, a length-1
operand broadcasts against the other, and any other mismatch raises. -/
def broadcastWith (f : ℚ → ℚ → ℚ) (a b : List ℚ) : Option (List ℚ) :=
  if a.length = b.length then some (List.zipWith f a b)
  else if a.length = 1 then some (b.map (fun y => f a.headI y))
  else if b.length = 1 then some (a.map (fun x => f x b.headI))
  else none

/-- Elementwise difference of two `(d, 1)` arrays with numpy's broadcasting
and failure semantics: `mu_m - mu_n` (ipca.py line 169) broadcasts a
`(1, 1)` operand against a `(d, 1)` one and raises on any other length
mismatch. -/
def subV (a b : List ℚ) : Option (List ℚ) := broadcastWith (fun x y => x - y) a b

/-- Embeds `X - np.tile(mu_m, m)` (ipca.py line 168): subtract the row mean
from every entry of its row. -/
def centerRows (X : List (List ℚ)) (mu_m : List ℚ) : List (List ℚ) :=
  List.zipWith (fun row c => row.map (fun a => a - c)) X mu_m

/-- Embeds `np.hstack((X_centered, v_augment))` (ipca.py line 171): append
one extra column; numpy raises ValueError when the row counts differ. -/
def hstackCol (X : List (List ℚ)) (v : List ℚ) : Option (List (List ℚ)) :=
  if X.length = v.length then some (List.zipWith (fun row a => row ++ [a]) X v)
  else none

/-- Embeds the rank-0 block of `update_model` (ipca.py lines 160-173), with
the assignments in source order: save `mu_n = self.mu`, compute the block
statistics, overwrite `self.total_variance` (line 164), then overwrite
`self.mu` (line 165), then center the block and form the augmentation
column `v = sqrt(n*m/(n+m)) * (mu_m - mu_n)` (lines 167-171).  The scalar
`c` stands for the factor `np.sqrt(n*m/(n+m))`, which has no exact
representation in `ℚ`; it depends only on `n` and `m`, not on any mean.
The attribute writes of lines 164-165 are executed before the fallible
expressions of lines 169 and 171 (the broadcast subtraction and the
hstack, either of which can raise on a shape mismatch), so the state
component holds the writes already performed when a later line raises;
the second component is `X_aug`, `none` when line 169 or 171 raises —
still before the barrier of line 175. -/
def update_model_coordinator (c : ℚ) (X : List (List ℚ)) (st : IState) :
    IState × Option (List (List ℚ)) :=
  let mu_n := st.mu
  let mv := calculate_sample_mean_and_variance X
  let mu_m := mv.1
  let s_m := mv.2
  let st1 := { st with
    total_variance := update_sample_variance st.total_variance s_m mu_n mu_m st.n (ncols X) }
  let st2 := { st1 with mu := update_sample_mean mu_n mu_m st1.n (ncols X) }
  let X_centered := centerRows X mu_m
  (st2, (subV mu_m mu_n).bind (fun diff => hstackCol X_centered (scaleV c diff)))

/-- The body of `update_model` (ipca.py lines 158-212) as a sequence of
steps on the coordinator's model state, one entry per `with TaskTimer`
stage plus the barrier and the three trailing assignments.  Steps that do
not touch the model state are the identity on it;  `uNew`/`sNew` stand for
the values produced by the QR/SVD pipeline and written at lines 209-210.
Index of each step:
0 = mean/variance update (lines 160-165) together with the centering and
    augmentation (167-171), all before any communication;
1 = `comm.Barrier()` (line 175);
2 = `Scatterv` of the augmented block (lines 177-179);
3 = `us = U @ S` (lines 181-182);  4 = `hstack` (lines 186-187);
5 = `parallel_qr` (lines 189-190: Gather and two Bcasts inside);
6 = SVD of R (lines 192-198);  7 = Bcast of U_tilde (lines 200-201);
8 = Bcast of S_tilde (lines 203-204);  9 = `U_prime` product (lines 206-207);
10 = `self.U = U_prime[:, :q]` (line 209);  11 = `self.S = diag` (line 210);
12 = `self.n += m` (line 212). -/
def updateSteps (c : ℚ) (X uNew sNew : List (List ℚ)) : List (IState → IState) :=
  [fun st => (update_model_coordinator c X st).1,
   id, id, id, id, id, id, id, id, id,
   fun st => { st with U := uNew },
   fun st => { st with S := sNew },
   fun st => { st with n := st.n + ncols X }]

/-- State after the first `k` steps of `updateSteps` have completed; a call
that raises during step `k` leaves exactly this state behind. -/
def execUpto (c : ℚ) (X uNew sNew : List (List ℚ)) (st : IState) (k : ℕ) : IState :=
  ((updateSteps c X uNew sNew).take k).foldl (fun s f => f s) st

/-- Which steps of `updateSteps` issue communication: the barrier, the
scatter, the collectives inside `parallel_qr`, and the two broadcasts. -/
def isCommStep (k : ℕ) : Bool := k == 1 || k == 2 || k == 5 || k == 7 || k == 8

/-- Shapes of `np.linalg.qr(A, mode='reduced')` on a `y × x` input:
`Q` is `y × min(y,x)`, `R` is `min(y,x) × x`. -/
def qr_reduced_shape (y x : ℕ) : (ℕ × ℕ) × (ℕ × ℕ) := ((y, min y x), (min y x, x))

/-- Element count of a 2-d array shape. -/
def elems (s : ℕ × ℕ) : ℕ := s.1 * s.2

/-- Shape-level embedding of `IPCA.parallel_qr` (ipca.py lines 100-133).
Rank `r` holds a `y r × x` local block; `w = q + m + 1` is computed from
`self.m`, the nominal block width fixed at construction (lines 103, 111).
The three guards are the implicit shape contracts of the source:
the `Gather` of `r_loc` into the `(size*w) × w` buffer `r_tot` requires
every rank to contribute exactly `w*w` elements (line 115); the `Bcast`s
require the root's `q_tot`/`r_tilde` to match the `(size*w) × w` and
`w × w` buffers allocated on the other ranks (lines 121-128); and the
product `q_loc @ q_tot[rank*x:(rank+1)*x, :]` (line 131, with numpy's
clamping slice semantics) requires the inner dimensions to agree.
On success returns the per-rank shapes of `q_fin` and the shape of
`r_tilde`. -/
def parallel_qr_shapes (q m size : ℕ) (y : ℕ → ℕ) (x : ℕ) :
    Option (List (ℕ × ℕ) × (ℕ × ℕ)) :=
  let w := q + m + 1
  if ∀ r ∈ List.range size, elems (qr_reduced_shape (y r) x).2 = w * w then
    if min (size * w) w = w then
      if ∀ r ∈ List.range size,
          (qr_reduced_shape (y r) x).1.2 = min ((r + 1) * x) (size * w) - min (r * x) (size * w) then
        some ((List.range size).map (fun r => (y r, w)), (w, w))
      else none
    else none
  else none

/-- Shape-contract embedding of the `Gatherv` in `IPCA.get_model`
(ipca.py lines 135-142).  `Ulocs r` is rank `r`'s local `U` flattened to
its element list; the call declares `split_counts` as the per-rank receive
lengths and `start_indices` as the displacements.  The MPI contract
requires each rank's send count to equal its declared receive length;
since `start_indices` are the prefix sums of `split_counts`, a successful
gather lays the payloads out contiguously in rank order. -/
def get_model_gather (d size : ℕ) (Ulocs : ℕ → List ℚ) : Option (List ℚ) :=
  if ∀ r ∈ List.range size, (Ulocs r).length = split_counts d size r then
    some ((List.range size).flatMap Ulocs)
  else none

/-- Embeds `IPCA.get_model` (ipca.py lines 135-142) for worker `rank`:
rank `r`'s local `U` is the list of its `split_counts[r]` basis rows, each
of `q` entries, flattened row-major for the wire.  The collective
`Gatherv` (line 139) faults (outer `none`) when its shape contract is
violated; otherwise rank 0 returns the assembled basis together with the
current `S`, `mu` and `total_variance`, and every other rank falls off the
`if rank == 0` and returns Python's `None` (the inner `none`). -/
def get_model (d size rank : ℕ) (Ulocs : ℕ → List (List ℚ)) (st : IState) :
    Option (Option (List ℚ × List (List ℚ) × List ℚ × List ℚ)) :=
  (get_model_gather d size (fun r => (Ulocs r).flatten)).map
    (fun utot => if rank = 0 then some (utot, st.S, st.mu, st.total_variance) else none)

/-- Shape of the `U` stored by `initialize_model` (ipca.py lines 234-235):
`np.linalg.svd(X - np.tile(mu, q), full_matrices=False)` on the `d × q`
centered sample yields a `d × min(d, q)` left factor, stored as `self.U`
on every rank. -/
def init_model_U_shape (d q : ℕ) : ℕ × ℕ := (d, min d q)

/-- Embeds `U_prime[:, :q]` (ipca.py line 209): keep the first `q` columns. -/
def colTrunc {ι : Type} {w q : ℕ} (hq : q ≤ w) (M : Matrix ι (Fin w) ℚ) :
    Matrix ι (Fin q) ℚ :=
  fun i j => M i (Fin.castLE hq j)

/-- Rank `r`'s `w × w` slice `q_tot[rank*w:(rank+1)*w, :]` (ipca.py line
131, in the nominal regime where the local width equals `w`); the
`(size*w) × w` matrix `q_tot` is indexed by rank-block/offset pairs. -/
def qtotBlock {size w : ℕ} (qtot : Matrix ((_ : Fin size) × Fin w) (Fin w) ℚ)
    (r : Fin size) : Matrix (Fin w) (Fin w) ℚ :=
  fun i j => qtot ⟨r, i⟩ j

/-- Embeds `q_fin = q_loc @ q_tot[rank*x:(rank+1)*x, :]` (ipca.py line 131)
for rank `r`, whose local block has `y r` rows. -/
def q_fin {size w : ℕ} {y : Fin size → ℕ}
    (qloc : (r : Fin size) → Matrix (Fin (y r)) (Fin w) ℚ)
    (qtot : Matrix ((_ : Fin size) × Fin w) (Fin w) ℚ) (r : Fin size) :
    Matrix (Fin (y r)) (Fin w) ℚ :=
  qloc r * qtotBlock qtot r

/-- The row-distributed `Q` factor of `parallel_qr` materialized over all
ranks: row `⟨r, i⟩` is row `i` of rank `r`'s `q_fin`. -/
def assembledQ {size w : ℕ} {y : Fin size → ℕ}
    (qloc : (r : Fin size) → Matrix (Fin (y r)) (Fin w) ℚ)
    (qtot : Matrix ((_ : Fin size) × Fin w) (Fin w) ℚ) :
    Matrix ((r : Fin size) × Fin (y r)) (Fin w) ℚ :=
  fun p j => q_fin qloc qtot p.1 p.2 j

/-- Embeds `U_prime = UB_tilde @ U_tilde` (ipca.py lines 206-207),
materialized over all ranks. -/
def U_prime_mat {size w : ℕ} {y : Fin size → ℕ}
    (qloc : (r : Fin size) → Matrix (Fin (y r)) (Fin w) ℚ)
    (qtot : Matrix ((_ : Fin size) × Fin w) (Fin w) ℚ)
    (Utilde : Matrix (Fin w) (Fin w) ℚ) :
    Matrix ((r : Fin size) × Fin (y r)) (Fin w) ℚ :=
  assembledQ qloc qtot * Utilde

/-- Embeds `self.U = U_prime[:, :q]` (ipca.py line 209), materialized over
all ranks: the new `d × q` basis. -/
def U_new {size w q : ℕ} {y : Fin size → ℕ}
    (qloc : (r : Fin size) → Matrix (Fin (y r)) (Fin w) ℚ)
    (qtot : Matrix ((_ : Fin size) × Fin w) (Fin w) ℚ)
    (Utilde : Matrix (Fin w) (Fin w) ℚ) (hq : q ≤ w) :
    Matrix ((r : Fin size) × Fin (y r)) (Fin q) ℚ :=
  colTrunc hq (U_prime_mat qloc qtot Utilde)

/-- All-ones `1 × 1` stacked factor used as a concrete orthonormal `q_tot`. -/
def onesQtot : Matrix ((_ : Fin 1) × Fin 1) (Fin 1) ℚ := Matrix.of (fun _ _ => 1)

lemma ssqAbout_expand (c : ℚ) (xs : List ℚ) :
    ssqAbout c xs = (xs.map (fun x => x ^ 2)).sum - 2 * c * xs.sum + (xs.length : ℚ) * c ^ 2 := by
  induction xs with
  | nil => simp [ssqAbout]
  | cons a t ih =>
    simp only [ssqAbout, List.map_cons, List.sum_cons, List.length_cons] at ih ⊢
    rw [ih]
    push_cast
    ring

lemma mean_append_scalar (xs ys : List ℚ) (n m : ℕ)
    (hx : xs.length = n) (hy : ys.length = m) (hn : 0 < n) (hm : 0 < m) :
    (1 / ((n : ℚ) + (m : ℚ))) * ((n : ℚ) * mean xs + (m : ℚ) * mean ys) = mean (xs ++ ys) := by
  have hn' : ((n : ℚ)) ≠ 0 := by exact_mod_cast hn.ne'
  have hm' : ((m : ℚ)) ≠ 0 := by exact_mod_cast hm.ne'
  have hnm : ((n : ℚ) + (m : ℚ)) ≠ 0 := by positivity
  simp only [mean, List.sum_append, List.length_append, hx, hy]
  push_cast
  field_simp

lemma dof_times_var (n : ℕ) (xs : List ℚ) (hx : xs.length = n) (hn : 0 < n) :
    ((n : ℚ) - 1) * (if 1 < n then npvar xs else 0)
      = (xs.map (fun x => x ^ 2)).sum - xs.sum ^ 2 / (n : ℚ) := by
  rcases Nat.lt_or_ge 1 n with h2 | h1
  · have hn' : ((n : ℚ)) ≠ 0 := by exact_mod_cast hn.ne'
    have hsub : ((n : ℚ)) - 1 ≠ 0 := by
      have : (1 : ℚ) < (n : ℚ) := by exact_mod_cast h2
      linarith
    rw [if_pos h2]
    simp only [npvar, hx, ssqAbout_expand, mean]
    field_simp
    ring
  · have hone : n = 1 := by omega
    subst hone
    rw [if_neg (by omega)]
    rcases List.length_eq_one.mp hx with ⟨a, rfl⟩
    simp

lemma var_append_scalar (xs ys : List ℚ) (n m : ℕ)
    (hx : xs.length = n) (hy : ys.length = m) (hn : 0 < n) (hm : 0 < m) :
    ((((n : ℚ) - 1) * (if 1 < n then npvar xs else 0)
        + ((m : ℚ) - 1) * (if 1 < m then npvar ys else 0))
      + ((n : ℚ) * (m : ℚ) * (mean xs - mean ys) ^ 2) / ((n : ℚ) + (m : ℚ)))
        / ((n : ℚ) + (m : ℚ) - 1)
      = npvar (xs ++ ys) := by
  have hn' : ((n : ℚ)) ≠ 0 := by exact_mod_cast hn.ne'
  have hm' : ((m : ℚ)) ≠ 0 := by exact_mod_cast hm.ne'
  have hn1 : (1 : ℚ) ≤ (n : ℚ) := by exact_mod_cast hn
  have hm1 : (1 : ℚ) ≤ (m : ℚ) := by exact_mod_cast hm
  have hnm : ((n : ℚ) + (m : ℚ)) ≠ 0 := by positivity
  have hnm1 : ((n : ℚ) + (m : ℚ)) - 1 ≠ 0 := by linarith
  rw [dof_times_var n xs hx hn, dof_times_var m ys hy hm]
  simp only [npvar, ssqAbout_expand, mean, List.sum_append, List.length_append,
    List.map_append, hx, hy]
  push_cast
  field_simp
  ring

lemma calc_mean_eq (X : List (List ℚ)) :
    (calculate_sample_mean_and_variance X).1 = X.map mean := rfl

lemma calc_var_eq (X : List (List ℚ)) (k : ℕ) (hk : ∀ r ∈ X, r.length = k) :
    (calculate_sample_mean_and_variance X).2
      = X.map (fun r => if 1 < k then npvar r else 0) := by
  cases X with
  | nil => simp [calculate_sample_mean_and_variance]
  | cons r t =>
    have hr : ncols (r :: t) = k := hk r (List.mem_cons_self r t)
    by_cases h : 1 < k
    · simp [calculate_sample_mean_and_variance, hr, h]
    · simp [calculate_sample_mean_and_variance, hr, h]

lemma zip_append_length (n m : ℕ) : ∀ (A B : List (List ℚ)),
    (∀ r ∈ A, r.length = n) → (∀ r ∈ B, r.length = m) →
    ∀ r ∈ List.zipWith (· ++ ·) A B, r.length = n + m := by
  intro A
  induction A with
  | nil => intro B _ _ r hr; simp at hr
  | cons a A ih =>
    intro B hA hB r hr
    cases B with
    | nil => simp at hr
    | cons b B =>
      simp only [List.zipWith_cons_cons, List.mem_cons] at hr
      rcases hr with rfl | hr
      · simp [hA a (by simp), hB b (by simp)]
      · exact ih B (fun s hs => hA s (by simp [hs])) (fun s hs => hB s (by simp [hs])) r hr

lemma update_mean_rows (n m : ℕ) (hn : 0 < n) (hm : 0 < m) :
    ∀ (A B : List (List ℚ)), A.length = B.length →
    (∀ r ∈ A, r.length = n) → (∀ r ∈ B, r.length = m) →
    update_sample_mean (A.map mean) (B.map mean) n m
      = (List.zipWith (· ++ ·) A B).map mean := by
  intro A
  induction A with
  | nil =>
    intro B hlen _ _
    have hB : B = [] := List.length_eq_zero.mp hlen.symm
    subst hB
    simp [update_sample_mean]
  | cons a A ih =>
    intro B hlen hA hB
    cases B with
    | nil => simp at hlen
    | cons b B =>
      have hlen' : A.length = B.length := by simpa using hlen
      have ha : a.length = n := hA a (by simp)
      have hb : b.length = m := hB b (by simp)
      have IH := ih B hlen' (fun s hs => hA s (by simp [hs])) (fun s hs => hB s (by simp [hs]))
      simp only [update_sample_mean, if_neg hn.ne', List.map_cons,
        List.zipWith_cons_cons] at IH ⊢
      rw [IH, mean_append_scalar a b n m ha hb hn hm]

lemma update_var_rows (n m : ℕ) (hn : 0 < n) (hm : 0 < m) :
    ∀ (A B : List (List ℚ)), A.length = B.length →
    (∀ r ∈ A, r.length = n) → (∀ r ∈ B, r.length = m) →
    update_sample_variance (A.map (fun r => if 1 < n then npvar r else 0))
        (B.map (fun r => if 1 < m then npvar r else 0))
        (A.map mean) (B.map mean) n m
      = (List.zipWith (· ++ ·) A B).map (fun r => if 1 < n + m then npvar r else 0) := by
  intro A
  induction A with
  | nil =>
    intro B hlen _ _
    have hB : B = [] := List.length_eq_zero.mp hlen.symm
    subst hB
    simp [update_sample_variance, zip4]
  | cons a A ih =>
    intro B hlen hA hB
    cases B with
    | nil => simp at hlen
    | cons b B =>
      have hlen' : A.length = B.length := by simpa using hlen
      have ha : a.length = n := hA a (by simp)
      have hb : b.length = m := hB b (by simp)
      have IH := ih B hlen' (fun s hs => hA s (by simp [hs])) (fun s hs => hB s (by simp [hs]))
      simp only [update_sample_variance, if_neg hn.ne', List.map_cons,
        List.zipWith_cons_cons, zip4] at IH ⊢
      rw [IH, if_pos (show 1 < n + m by omega),
        var_append_scalar a b n m ha hb hn hm]

/-- C1: for blocks with `n > 0` and `m > 0` observations and exact per-block
inputs, `update_sample_variance` equals elementwise the 1-dof sample
variance recomputed from scratch over the concatenation of all `n + m`
observations, with `update_sample_mean` giving the exact combined mean;
and for `n == 0` both combiners return the new block's statistic
unchanged. -/
theorem c1_pooled_update_exact :
    (∀ (A B : List (List ℚ)) (n m : ℕ), 0 < n → 0 < m → A.length = B.length →
      (∀ r ∈ A, r.length = n) → (∀ r ∈ B, r.length = m) →
      update_sample_mean (calculate_sample_mean_and_variance A).1
          (calculate_sample_mean_and_variance B).1 n m
        = (calculate_sample_mean_and_variance (List.zipWith (· ++ ·) A B)).1
      ∧ update_sample_variance (calculate_sample_mean_and_variance A).2
          (calculate_sample_mean_and_variance B).2
          (calculate_sample_mean_and_variance A).1
          (calculate_sample_mean_and_variance B).1 n m
        = (calculate_sample_mean_and_variance (List.zipWith (· ++ ·) A B)).2)
    ∧ (∀ (s_n s_m mu_n mu_m : List ℚ) (m : ℕ),
        update_sample_variance s_n s_m mu_n mu_m 0 m = s_m
        ∧ update_sample_mean mu_n mu_m 0 m = mu_m) := by
  constructor
  · intro A B n m hn hm hlen hA hB
    constructor
    · rw [calc_mean_eq A, calc_mean_eq B, calc_mean_eq]
      exact update_mean_rows n m hn hm A B hlen hA hB
    · rw [calc_mean_eq A, calc_mean_eq B, calc_var_eq A n hA, calc_var_eq B m hB,
        calc_var_eq _ (n + m) (zip_append_length n m A B hA hB)]
      exact update_var_rows n m hn hm A B hlen hA hB
  · intro s_n s_m mu_n mu_m m
    exact ⟨by simp [update_sample_variance], by simp [update_sample_mean]⟩

/-- Witness for C1: blocks `[[1, 2]]` (n = 2) and `[[4]]` (m = 1) over one
feature. -/
theorem c1_pooled_update_exact_witness :
    update_sample_mean (calculate_sample_mean_and_variance [[(1 : ℚ), 2]]).1
        (calculate_sample_mean_and_variance [[(4 : ℚ)]]).1 2 1
      = (calculate_sample_mean_and_variance
          (List.zipWith (· ++ ·) [[(1 : ℚ), 2]] [[(4 : ℚ)]])).1
    ∧ update_sample_variance (calculate_sample_mean_and_variance [[(1 : ℚ), 2]]).2
        (calculate_sample_mean_and_variance [[(4 : ℚ)]]).2
        (calculate_sample_mean_and_variance [[(1 : ℚ), 2]]).1
        (calculate_sample_mean_and_variance [[(4 : ℚ)]]).1 2 1
      = (calculate_sample_mean_and_variance
          (List.zipWith (· ++ ·) [[(1 : ℚ), 2]] [[(4 : ℚ)]])).2 :=
  c1_pooled_update_exact.1 [[(1 : ℚ), 2]] [[(4 : ℚ)]] 2 1 (by decide) (by decide)
    (by decide) (by decide) (by decide)

lemma scanl_add_getD : ∀ (l : List ℕ) (a i : ℕ), i ≤ l.length →
    (l.scanl (· + ·) a).getD i 0 = a + (l.take i).sum := by
  intro l
  induction l with
  | nil =>
    intro a i hi
    have : i = 0 := by simpa using hi
    subst this
    simp
  | cons h t ih =>
    intro a i hi
    cases i with
    | zero => simp
    | succ j =>
      have hj : j ≤ t.length := by simpa using hi
      simp only [List.scanl_cons, List.singleton_append, List.getD_cons_succ,
        List.take_succ_cons, List.sum_cons]
      rw [ih (a + h) j hj]
      omega

lemma split_counts_src_length (d size : ℕ) : (split_counts_src d size).length = size := by
  simp [split_counts_src]

lemma sum_take_counts (d size r : ℕ) (hr : r ≤ size) :
    ((split_counts_src d size).take r).sum
      = ((List.range r).map (num_per_rank d size)).sum := by
  simp only [split_counts_src, ← List.map_take, List.take_range, min_eq_left hr]

lemma start_indices_eq (d size r : ℕ) (hr : r ≤ size) :
    start_indices d size r = ((List.range r).map (num_per_rank d size)).sum := by
  unfold start_indices split_indices
  rw [scanl_add_getD _ 0 r (by rw [split_counts_src_length]; exact hr),
    sum_take_counts d size r hr, Nat.zero_add]

lemma split_counts_eq (d size r : ℕ) (hr : r < size) :
    split_counts d size r = num_per_rank d size r := by
  unfold split_counts split_indices
  rw [scanl_add_getD _ 0 (r + 1) (by rw [split_counts_src_length]; omega),
    scanl_add_getD _ 0 r (by rw [split_counts_src_length]; omega),
    sum_take_counts d size (r + 1) (by omega), sum_take_counts d size r (by omega),
    List.range_succ, List.map_append, List.sum_append]
  simp

lemma sum_map_add_nat (f g : ℕ → ℕ) : ∀ n,
    ((List.range n).map (fun r => f r + g r)).sum
      = ((List.range n).map f).sum + ((List.range n).map g).sum := by
  intro n
  induction n with
  | zero => simp
  | succ k ih =>
    simp only [List.range_succ, List.map_append, List.sum_append, ih]
    simp
    omega

lemma sum_ite_lt (k : ℕ) : ∀ n,
    ((List.range n).map (fun r => if r < k then 1 else 0)).sum = min k n := by
  intro n
  induction n with
  | zero => simp
  | succ j ih =>
    rw [List.range_succ, List.map_append, List.sum_append, ih]
    simp only [List.map_cons, List.map_nil, List.sum_cons, List.sum_nil]
    split_ifs <;> omega

lemma sum_const_map (c : ℕ) : ∀ n, ((List.range n).map (fun _ => c)).sum = n * c := by
  intro n
  induction n with
  | zero => simp
  | succ j ih =>
    rw [List.range_succ, List.map_append, List.sum_append, ih]
    simp only [List.map_cons, List.map_nil, List.sum_cons, List.sum_nil]
    ring

/-- C2: for `d ≥ 0` and `size ≥ 1`, the partition produced by
`distribute_indices` assigns `count[r] = d // size` plus one extra row for
the first `d mod size` ranks, `start[r]` is the prefix sum of the earlier
counts, the counts sum to `d`, the ranges are contiguous / non-overlapping
/ ordered by rank (`start[r+1] = start[r] + count[r]`), and any two counts
differ by at most 1. -/
theorem c2_distribute_indices_partition (d size : ℕ) (hs : 1 ≤ size) :
    (∀ r, r < size →
        split_counts d size r = d / size + (if r < d % size then 1 else 0))
    ∧ (∀ r, r < size →
        start_indices d size r = ((List.range r).map (num_per_rank d size)).sum)
    ∧ ((List.range size).map (split_counts d size)).sum = d
    ∧ (∀ r, r + 1 < size →
        start_indices d size (r + 1) = start_indices d size r + split_counts d size r)
    ∧ (∀ r s, r < size → s < size → split_counts d size r ≤ split_counts d size s + 1) := by
  refine ⟨?_, ?_, ?_, ?_, ?_⟩
  · intro r hr
    exact split_counts_eq d size r hr
  · intro r hr
    exact start_indices_eq d size r hr.le
  · have hmap : ((List.range size).map (split_counts d size)).sum
        = ((List.range size).map (num_per_rank d size)).sum :=
      congrArg List.sum
        (List.map_congr_left (fun r hr => split_counts_eq d size r (List.mem_range.mp hr)))
    rw [hmap]
    have hsplit : ((List.range size).map (num_per_rank d size)).sum
        = ((List.range size).map (fun _ => d / size)).sum
          + ((List.range size).map (fun r => if r < d % size then 1 else 0)).sum := by
      rw [← sum_map_add_nat (fun _ => d / size) (fun r => if r < d % size then 1 else 0) size]
      rfl
    rw [hsplit, sum_const_map, sum_ite_lt,
      min_eq_left (Nat.mod_lt d (show 0 < size by omega)).le]
    exact Nat.div_add_mod d size
  · intro r hr
    rw [start_indices_eq d size (r + 1) (by omega), start_indices_eq d size r (by omega),
      split_counts_eq d size r (by omega), List.range_succ, List.map_append, List.sum_append]
    simp
  · intro r s hr hs'
    rw [split_counts_eq d size r hr, split_counts_eq d size s hs']
    unfold num_per_rank
    split_ifs <;> omega

/-- Witness for C2 at `d = 5`, `size = 3`: counts `[2, 2, 1]` sum to 5. -/
theorem c2_distribute_indices_partition_witness :
    ((List.range 3).map (split_counts 5 3)).sum = 5 :=
  (c2_distribute_indices_partition 5 3 (by decide)).2.2.1

/-- C3: in every `update_model` call the coordinator combines
`total_variance` (line 164) before overwriting `mu` (line 165) — the
sequencing embedded in `update_model_coordinator` — and both the variance
combination and the augmentation column `v = sqrt(n*m/(n+m))*(mu_m - mu_n)`
are computed with the pre-update mean `st.mu` held before the call, never
with the newly blended mean. -/
theorem c3_pre_update_mean (c : ℚ) (X : List (List ℚ)) (st : IState) :
    (update_model_coordinator c X st).1.total_variance
      = update_sample_variance st.total_variance
          (calculate_sample_mean_and_variance X).2 st.mu
          (calculate_sample_mean_and_variance X).1 st.n (ncols X)
    ∧ (update_model_coordinator c X st).1.mu
      = update_sample_mean st.mu (calculate_sample_mean_and_variance X).1 st.n (ncols X)
    ∧ (update_model_coordinator c X st).2
      = (subV (calculate_sample_mean_and_variance X).1 st.mu).bind
          (fun diff => hstackCol
            (centerRows X (calculate_sample_mean_and_variance X).1) (scaleV c diff)) :=
  ⟨rfl, rfl, rfl⟩

/-- C10: `update_model` is not atomic on failure — after the coordinator
phase (step 0) and before the basis write (step 10), i.e. at any
interruption point inside the communication / factorization section,
`mu` and `total_variance` already hold the post-block values while `U`,
`S` and `n` still hold the pre-call values; the mutation step 0 is not a
communication step and the first communication is the barrier at step 1. -/
theorem c10_update_not_atomic (c : ℚ) (X uNew sNew : List (List ℚ)) (st : IState)
    (k : ℕ) (h1 : 1 ≤ k) (h2 : k ≤ 10) :
    (execUpto c X uNew sNew st k).mu
      = update_sample_mean st.mu (calculate_sample_mean_and_variance X).1 st.n (ncols X)
    ∧ (execUpto c X uNew sNew st k).total_variance
      = update_sample_variance st.total_variance (calculate_sample_mean_and_variance X).2
          st.mu (calculate_sample_mean_and_variance X).1 st.n (ncols X)
    ∧ (execUpto c X uNew sNew st k).U = st.U
    ∧ (execUpto c X uNew sNew st k).S = st.S
    ∧ (execUpto c X uNew sNew st k).n = st.n
    ∧ isCommStep 0 = false ∧ isCommStep 1 = true := by
  interval_cases k <;> exact ⟨rfl, rfl, rfl, rfl, rfl, rfl, rfl⟩

/-- Witness for C10 at a concrete state interrupted after step 5
(`parallel_qr`). -/
theorem c10_update_not_atomic_witness :
    (execUpto 0 [[(1 : ℚ)]] [[(5 : ℚ)]] [[(7 : ℚ)]] (IState.mk [0] [0] [[2]] [[3]] 4) 5).mu
      = update_sample_mean [0] (calculate_sample_mean_and_variance [[(1 : ℚ)]]).1 4
          (ncols [[(1 : ℚ)]])
    ∧ (execUpto 0 [[(1 : ℚ)]] [[(5 : ℚ)]] [[(7 : ℚ)]]
          (IState.mk [0] [0] [[2]] [[3]] 4) 5).total_variance
      = update_sample_variance [0] (calculate_sample_mean_and_variance [[(1 : ℚ)]]).2
          [0] (calculate_sample_mean_and_variance [[(1 : ℚ)]]).1 4 (ncols [[(1 : ℚ)]])
    ∧ (execUpto 0 [[(1 : ℚ)]] [[(5 : ℚ)]] [[(7 : ℚ)]]
          (IState.mk [0] [0] [[2]] [[3]] 4) 5).U = [[2]]
    ∧ (execUpto 0 [[(1 : ℚ)]] [[(5 : ℚ)]] [[(7 : ℚ)]]
          (IState.mk [0] [0] [[2]] [[3]] 4) 5).S = [[3]]
    ∧ (execUpto 0 [[(1 : ℚ)]] [[(5 : ℚ)]] [[(7 : ℚ)]]
          (IState.mk [0] [0] [[2]] [[3]] 4) 5).n = 4
    ∧ isCommStep 0 = false ∧ isCommStep 1 = true :=
  c10_update_not_atomic 0 [[(1 : ℚ)]] [[(5 : ℚ)]] [[(7 : ℚ)]]
    (IState.mk [0] [0] [[2]] [[3]] 4) 5 (by decide) (by decide)

/-- C7 counterexample: a model with `d = 2` (`mu = [0, 0]`) in the `n = 0`
state receives the block `[[1]]` whose row count 1 differs from `d = 2` —
a precondition violation.  There is no validation: the coordinator phase
first overwrites `mu` (and `total_variance`) at lines 164-165, and only
then raises numpy's ValueError at the `np.hstack` of line 171 (the `none`
second component), the broadcast augmentation column having 2 rows against
the centered block's 1.  The failure is a shape fault from partway through
the update, not a descriptive precondition error, and at the moment it is
raised the state is already partially mutated — refuting "never partially
mutate state". -/
theorem c7_counterexample :
    (update_model_coordinator 0 [[(1 : ℚ)]]
        (IState.mk [0, 0] [0, 0] [[0], [0]] [[1]] 0)).2 = none
    ∧ (update_model_coordinator 0 [[(1 : ℚ)]]
        (IState.mk [0, 0] [0, 0] [[0], [0]] [[1]] 0)).1.mu = [1]
    ∧ (IState.mk ([0, 0] : List ℚ) [0, 0] [[0], [0]] [[1]] 0).mu ≠ [1] := by
  refine ⟨?_, ?_, by decide⟩
  · show ((subV (calculate_sample_mean_and_variance [[(1 : ℚ)]]).1 [0, 0]).bind
        (fun diff => hstackCol
          (centerRows [[(1 : ℚ)]] (calculate_sample_mean_and_variance [[(1 : ℚ)]]).1)
          (scaleV 0 diff))) = none
    simp [calculate_sample_mean_and_variance, ncols, subV, broadcastWith,
      centerRows, scaleV, hstackCol]
  · show (update_model_coordinator 0 [[(1 : ℚ)]]
        (IState.mk [0, 0] [0, 0] [[0], [0]] [[1]] 0)).1.mu = [1]
    norm_num [update_model_coordinator, update_sample_mean,
      calculate_sample_mean_and_variance, mean]

/-- C7 (amended): `update_model` performs no precondition validation: for
any state with `n = 0` and any block `X` — in particular one whose row
count differs from `d` — the coordinator overwrites `mu` and
`total_variance` with the block's own statistics (lines 162-165) before
any communication and before the first operation that can fail (the
broadcast subtraction of line 169 or the hstack of line 171); whether or
not that fallible tail subsequently raises, the state already holds the
new statistics while `U`, `S`, `n` are unchanged, and every communication
step comes later. -/
theorem c7_no_fail_fast (c : ℚ) (X : List (List ℚ)) (st : IState) (h0 : st.n = 0) :
    (update_model_coordinator c X st).1.mu = (calculate_sample_mean_and_variance X).1
    ∧ (update_model_coordinator c X st).1.total_variance
      = (calculate_sample_mean_and_variance X).2
    ∧ (update_model_coordinator c X st).1.U = st.U
    ∧ (update_model_coordinator c X st).1.S = st.S
    ∧ (update_model_coordinator c X st).1.n = st.n
    ∧ (∀ j, isCommStep j = true → 1 ≤ j) := by
  refine ⟨?_, ?_, rfl, rfl, rfl, ?_⟩
  · show update_sample_mean st.mu (calculate_sample_mean_and_variance X).1 st.n (ncols X)
      = (calculate_sample_mean_and_variance X).1
    simp [update_sample_mean, h0]
  · show update_sample_variance st.total_variance (calculate_sample_mean_and_variance X).2
        st.mu (calculate_sample_mean_and_variance X).1 st.n (ncols X)
      = (calculate_sample_mean_and_variance X).2
    simp [update_sample_variance, h0]
  · intro j hj
    by_cases h : j = 0
    · subst h
      simp [isCommStep] at hj
    · omega

/-- Witness for C7's amended statement at the mismatched-row-count input
(one where the coordinator phase's fallible tail does later raise). -/
theorem c7_no_fail_fast_witness :
    (update_model_coordinator 0 [[(1 : ℚ)]]
        (IState.mk [0, 0] [0, 0] [[0], [0]] [[1]] 0)).1.mu
      = (calculate_sample_mean_and_variance [[(1 : ℚ)]]).1
    ∧ (update_model_coordinator 0 [[(1 : ℚ)]]
        (IState.mk [0, 0] [0, 0] [[0], [0]] [[1]] 0)).1.total_variance
      = (calculate_sample_mean_and_variance [[(1 : ℚ)]]).2
    ∧ (update_model_coordinator 0 [[(1 : ℚ)]]
        (IState.mk [0, 0] [0, 0] [[0], [0]] [[1]] 0)).1.U = [[0], [0]]
    ∧ (update_model_coordinator 0 [[(1 : ℚ)]]
        (IState.mk [0, 0] [0, 0] [[0], [0]] [[1]] 0)).1.S = [[1]]
    ∧ (update_model_coordinator 0 [[(1 : ℚ)]]
        (IState.mk [0, 0] [0, 0] [[0], [0]] [[1]] 0)).1.n = 0
    ∧ (∀ j, isCommStep j = true → 1 ≤ j) :=
  c7_no_fail_fast 0 [[(1 : ℚ)]] (IState.mk [0, 0] [0, 0] [[0], [0]] [[1]] 0) rfl

lemma pqr_none_of_mismatch (q m size : ℕ) (y : ℕ → ℕ) (x r : ℕ) (hr : r < size)
    (hne : elems (qr_reduced_shape (y r) x).2 ≠ (q + m + 1) * (q + m + 1)) :
    parallel_qr_shapes q m size y x = none := by
  have h : ¬ ∀ s ∈ List.range size,
      elems (qr_reduced_shape (y s) x).2 = (q + m + 1) * (q + m + 1) :=
    fun hall => hne (hall r (List.mem_range.mpr hr))
  simp only [parallel_qr_shapes]
  rw [if_neg h]

lemma pqr_complete (q m size : ℕ) (y : ℕ → ℕ) (hs : 1 ≤ size)
    (hy : ∀ r, r < size → q + m + 1 ≤ y r) :
    parallel_qr_shapes q m size y (q + m + 1)
      = some ((List.range size).map (fun r => (y r, q + m + 1)),
          (q + m + 1, q + m + 1)) := by
  have h1 : ∀ r ∈ List.range size,
      elems (qr_reduced_shape (y r) (q + m + 1)).2 = (q + m + 1) * (q + m + 1) := by
    intro r hr
    have hyr := hy r (List.mem_range.mp hr)
    simp [qr_reduced_shape, elems, min_eq_right hyr]
  have h2 : min (size * (q + m + 1)) (q + m + 1) = q + m + 1 :=
    min_eq_right (Nat.le_mul_of_pos_left (q + m + 1) (by omega))
  have h3 : ∀ r ∈ List.range size,
      (qr_reduced_shape (y r) (q + m + 1)).1.2
        = min ((r + 1) * (q + m + 1)) (size * (q + m + 1))
          - min (r * (q + m + 1)) (size * (q + m + 1)) := by
    intro r hr
    have hrs := List.mem_range.mp hr
    have hyr := hy r hrs
    have e1 : min ((r + 1) * (q + m + 1)) (size * (q + m + 1)) = (r + 1) * (q + m + 1) :=
      min_eq_left (Nat.mul_le_mul_right _ (by omega))
    have e2 : min (r * (q + m + 1)) (size * (q + m + 1)) = r * (q + m + 1) :=
      min_eq_left (Nat.mul_le_mul_right _ (by omega))
    have lhs : (qr_reduced_shape (y r) (q + m + 1)).1.2 = q + m + 1 := by
      simp [qr_reduced_shape, min_eq_right hyr]
    rw [lhs, e1, e2, Nat.succ_mul]
    omega
  simp only [parallel_qr_shapes]
  rw [if_pos h1, if_pos h2, if_pos h3]

/-- C4 counterexample: a model with `q = 1` and nominal block width
`m = 2` (so `parallel_qr` sizes its gather buffer for `w = 4`) given a
block of width `m' = 1` (local QR input width `x = 3`, `r_loc` of 9
elements against a per-rank receive count of 16): the distributed QR's
gather contract is violated and the engine does not complete, already with
a single worker holding all 4 rows. -/
theorem c4_counterexample :
    parallel_qr_shapes 1 2 1 (fun _ => 4) 3 = none := by
  decide

/-- C4 (amended): on a model with nominal block width `m` and every rank
holding at least `w = q + m + 1` rows, `update_model`'s distributed QR
completes without shape mismatch exactly when the block width `m'` equals
`m`: `parallel_qr` sizes the gathered `R` stack from the nominal `m`, so
any `1 ≤ m' < m` makes every rank's `(q+m'+1) × (q+m'+1)` local `R` factor
violate the fixed per-rank gather count `(q+m+1)^2`. -/
theorem c4_nominal_width_only (q m mp size : ℕ) (y : ℕ → ℕ)
    (hs : 1 ≤ size) (hmp : 1 ≤ mp) (hmpm : mp ≤ m)
    (hy : ∀ r, r < size → q + m + 1 ≤ y r) :
    (parallel_qr_shapes q m size y (q + mp + 1)).isSome = true ↔ mp = m := by
  constructor
  · intro hsome
    by_contra hne
    have hlt : q + mp + 1 < q + m + 1 := by omega
    have h0 : (0 : ℕ) < size := hs
    have hy0 := hy 0 h0
    have hminx : min (y 0) (q + mp + 1) = q + mp + 1 := min_eq_right (by omega)
    have hmm : elems (qr_reduced_shape (y 0) (q + mp + 1)).2
        ≠ (q + m + 1) * (q + m + 1) := by
      simp only [qr_reduced_shape, elems, hminx]
      have : (q + mp + 1) * (q + mp + 1) < (q + m + 1) * (q + m + 1) := by
        nlinarith
      omega
    rw [pqr_none_of_mismatch q m size y (q + mp + 1) 0 h0 hmm] at hsome
    simp at hsome
  · intro h
    subst h
    rw [pqr_complete q mp size y hs hy]
    rfl

/-- Witness for C4's amended statement: `q = 1`, nominal `m = 2`, block
width `m' = 2`, one worker with 4 rows. -/
theorem c4_nominal_width_only_witness :
    (parallel_qr_shapes 1 2 1 (fun _ => 4) (1 + 2 + 1)).isSome = true ↔ 2 = 2 :=
  c4_nominal_width_only 1 2 2 1 (fun _ => 4) (by decide) (by decide) (by decide)
    (fun r hr => Nat.le_refl 4)

/-- C8 counterexample: `d = 1`, `size = 2`, `q = m = 1` (`w = 3`).  Rank 1
has `count[1] = 0` rows; numpy's reduced QR of its `0 × 3` block yields a
`0 × 0` `Q_local` and a `0 × 3` `R_local` — not the claimed fixed-size
`3 × 3` block — so the gather's fixed-size contract is violated and the
engine does not complete. -/
theorem c8_counterexample :
    split_counts 1 2 1 = 0
    ∧ (qr_reduced_shape (split_counts 1 2 1) 3).2 ≠ (3, 3)
    ∧ parallel_qr_shapes 1 1 2 (split_counts 1 2) 3 = none := by
  decide

/-- C8 (amended): with the input width at its nominal value `w = q+m+1`,
the distributed QR engine completes when every rank holds at least `w`
rows, and faults (gather contract violation) whenever any rank — in
particular one with `count[rank] = 0` — holds fewer than `w` rows, since
its local `R` factor is `count[rank] × w` rather than `w × w`. -/
theorem c8_empty_rank_gather_fault (q m size : ℕ) (y : ℕ → ℕ) (hs : 1 ≤ size) :
    ((∀ r, r < size → q + m + 1 ≤ y r) →
      (parallel_qr_shapes q m size y (q + m + 1)).isSome = true)
    ∧ (∀ r, r < size → y r < q + m + 1 →
        parallel_qr_shapes q m size y (q + m + 1) = none) := by
  constructor
  · intro hy
    rw [pqr_complete q m size y hs hy]
    rfl
  · intro r hr hlt
    apply pqr_none_of_mismatch q m size y (q + m + 1) r hr
    have hmin : min (y r) (q + m + 1) = y r := min_eq_left (by omega)
    simp only [qr_reduced_shape, elems, hmin]
    have : y r * (q + m + 1) < (q + m + 1) * (q + m + 1) :=
      (Nat.mul_lt_mul_right (show 0 < q + m + 1 by omega)).mpr hlt
    omega

/-- Witness for C8's amended statement: the partition of `d = 1` over
`size = 2` gives rank 1 zero rows, and the engine faults. -/
theorem c8_empty_rank_gather_fault_witness :
    parallel_qr_shapes 1 1 2 (split_counts 1 2) (1 + 1 + 1) = none :=
  (c8_empty_rank_gather_fault 1 1 2 (split_counts 1 2) (by decide)).2 1 (by decide)
    (by decide)

lemma flatten_len (q : ℕ) : ∀ (M : List (List ℚ)),
    (∀ row ∈ M, row.length = q) → M.flatten.length = M.length * q := by
  intro M
  induction M with
  | nil => intro _; simp
  | cons r t ih =>
    intro h
    simp only [List.flatten_cons, List.length_append, List.length_cons]
    rw [h r (by simp), ih (fun s hs => h s (by simp [hs]))]
    ring

lemma split_counts_zero_pos (d size : ℕ) (hd : 1 ≤ d) (hs : 1 ≤ size) :
    1 ≤ split_counts d size 0 := by
  rw [split_counts_eq d size 0 hs]
  unfold num_per_rank
  rcases Nat.eq_zero_or_pos (d % size) with h | h
  · have hdm := Nat.div_add_mod d size
    have hq : d / size ≠ 0 := by
      intro h0
      rw [h0, Nat.mul_zero] at hdm
      omega
    rw [if_neg (by omega)]
    simpa using Nat.pos_of_ne_zero hq
  · rw [if_pos h]
    exact Nat.le_add_left 1 (d / size)

/-- C9 counterexample: `d = 1`, `size = 1`, `q = 2`.  Rank 0's local `U` is
the single `1 × 2` row `[3, 4]`, 2 elements, but `get_model` declares the
row count `split_counts[0] = 1` as the gather length: the gather's shape
contract is violated, the call faults, and the claimed assembly of the
full `d × q` basis (with the `S`/`mu`/`total_variance` return) does not
happen even on the coordinator. -/
theorem c9_counterexample :
    get_model 1 1 0 (fun _ => [[(3 : ℚ), 4]])
        (IState.mk [0] [0] [[3, 4]] [[1, 0], [0, 1]] 0) = none
    ∧ split_counts 1 1 0 = 1 := by
  decide

/-- C9 (amended): `get_model` passes the partition's per-rank row counts
(`split_counts`) and row offsets (`start_indices`) as the element-count
lengths and displacements of the `Gatherv`, which match the
`count[rank] * q` elements of each local `U` only when `q = 1`.  For
`q = 1` the gather completes, assembling the rank-ordered concatenation of
the partitions, and the call returns it together with the current `S`,
`mu`, `total_variance` on the coordinator and nothing meaningful (`None`)
on every other rank.  For every `q > 1` (with `d ≥ 1`, so some partition
is nonempty) rank 0 sends `count[0] * q` elements against its declared
length `count[0]`: the gather's shape contract is violated and the call
does not complete on any rank. -/
theorem c9_get_model_contract (d q size rank : ℕ) (Ulocs : ℕ → List (List ℚ))
    (st : IState) (hs : 1 ≤ size)
    (h : ∀ r, r < size →
      (Ulocs r).length = split_counts d size r ∧ ∀ row ∈ Ulocs r, row.length = q) :
    (q = 1 → get_model d size rank Ulocs st
        = some (if rank = 0
            then some ((List.range size).flatMap (fun r => (Ulocs r).flatten),
              st.S, st.mu, st.total_variance)
            else none))
    ∧ (1 < q → 1 ≤ d → get_model d size rank Ulocs st = none) := by
  constructor
  · intro hq
    subst hq
    have hc : ∀ r ∈ List.range size,
        ((Ulocs r).flatten).length = split_counts d size r := by
      intro r hr
      have hr' := List.mem_range.mp hr
      rw [flatten_len 1 (Ulocs r) (h r hr').2, (h r hr').1, Nat.mul_one]
    have hg : get_model_gather d size (fun r => (Ulocs r).flatten)
        = some ((List.range size).flatMap (fun r => (Ulocs r).flatten)) := by
      simp only [get_model_gather]
      rw [if_pos hc]
    simp [get_model, hg]
  · intro hq hd
    have h0 := h 0 hs
    have hpos := split_counts_zero_pos d size hd hs
    have hne : ((Ulocs 0).flatten).length ≠ split_counts d size 0 := by
      rw [flatten_len q (Ulocs 0) h0.2, h0.1]
      have : split_counts d size 0 < split_counts d size 0 * q := by
        nlinarith
      omega
    have hnall : ¬ ∀ r ∈ List.range size,
        ((Ulocs r).flatten).length = split_counts d size r :=
      fun hall => hne (hall 0 (List.mem_range.mpr hs))
    have hg : get_model_gather d size (fun r => (Ulocs r).flatten) = none := by
      simp only [get_model_gather]
      rw [if_neg hnall]
    simp [get_model, hg]

/-- Witness for C9's amended statement: `d = 2`, `size = 2`, `q = 1`,
rank 0 of the coordinator view, rank `r` owning the single row `[[r]]`. -/
theorem c9_get_model_contract_witness :
    get_model 2 2 0 (fun r => [[(r : ℚ)]]) (IState.mk [5] [6] [[7]] [[8]] 3)
      = some (some
          ((List.range 2).flatMap (fun r => ([[(r : ℚ)]] : List (List ℚ)).flatten),
            ([[8]] : List (List ℚ)), ([5] : List ℚ), ([6] : List ℚ))) :=
  (c9_get_model_contract 2 1 2 0 (fun r => [[(r : ℚ)]]) (IState.mk [5] [6] [[7]] [[8]] 3)
    (by decide)
    (fun r hr => by interval_cases r <;> exact ⟨by decide, by decide⟩)).1 rfl

/-- C5: `initialize_model` stores the full `d × min(d, q)` left singular
factor as `self.U` on every rank (ipca.py lines 234-235), not the rank's
partition: at `d = 2`, `q = 1`, `size = 2` each rank ends up with a 2-row
`U` although its partition owns `split_counts[rank] = 1` row — breaking
the row-distribution invariant that `__init__`, `update_model`'s `hstack`
and `get_model`'s gather all rely on. -/
theorem c5_init_model_breaks_partition :
    init_model_U_shape 2 1 = (2, 1)
    ∧ split_counts 2 2 0 = 1 ∧ split_counts 2 2 1 = 1
    ∧ (init_model_U_shape 2 1).1 ≠ split_counts 2 2 0 := by
  decide

open Matrix

lemma mul_orth_cols {ι κ μ : Type} [Fintype ι] [Fintype κ] [DecidableEq κ]
    [Fintype μ] [DecidableEq μ]
    (A : Matrix ι κ ℚ) (B : Matrix κ μ ℚ) (hA : Aᵀ * A = 1) (hB : Bᵀ * B = 1) :
    (A * B)ᵀ * (A * B) = 1 := by
  rw [Matrix.transpose_mul, Matrix.mul_assoc, ← Matrix.mul_assoc Aᵀ A B, hA,
    Matrix.one_mul, hB]

lemma trunc_orth {ι : Type} [Fintype ι] {w q : ℕ} (hq : q ≤ w)
    (M : Matrix ι (Fin w) ℚ) (h : Mᵀ * M = 1) :
    (colTrunc hq M)ᵀ * colTrunc hq M = 1 := by
  ext j k
  have hjk : (Mᵀ * M) (Fin.castLE hq j) (Fin.castLE hq k)
      = (1 : Matrix (Fin w) (Fin w) ℚ) (Fin.castLE hq j) (Fin.castLE hq k) := by
    rw [h]
  rw [Matrix.mul_apply] at hjk
  rw [Matrix.mul_apply]
  simp only [Matrix.transpose_apply, colTrunc] at hjk ⊢
  rw [hjk]
  simp [Matrix.one_apply, (Fin.castLE_injective hq).eq_iff]

lemma assembledQ_orth {size w : ℕ} {y : Fin size → ℕ}
    (qloc : (r : Fin size) → Matrix (Fin (y r)) (Fin w) ℚ)
    (qtot : Matrix ((_ : Fin size) × Fin w) (Fin w) ℚ)
    (hloc : ∀ r, (qloc r)ᵀ * qloc r = 1)
    (htot : qtotᵀ * qtot = 1) :
    (assembledQ qloc qtot)ᵀ * assembledQ qloc qtot = 1 := by
  have key : ∀ r : Fin size,
      (q_fin qloc qtot r)ᵀ * q_fin qloc qtot r
        = (qtotBlock qtot r)ᵀ * qtotBlock qtot r := by
    intro r
    show ((qloc r) * qtotBlock qtot r)ᵀ * ((qloc r) * qtotBlock qtot r) = _
    rw [Matrix.transpose_mul, Matrix.mul_assoc,
      ← Matrix.mul_assoc (qloc r)ᵀ (qloc r) _, hloc r, Matrix.one_mul]
  ext j k
  rw [Matrix.mul_apply]
  rw [show (Finset.univ : Finset ((r : Fin size) × Fin (y r)))
      = Finset.univ.sigma (fun _ => Finset.univ) from (Finset.univ_sigma_univ).symm]
  rw [Finset.sum_sigma]
  have step1 : ∀ r : Fin size,
      (∑ i : Fin (y r),
          (assembledQ qloc qtot)ᵀ j ⟨r, i⟩ * assembledQ qloc qtot ⟨r, i⟩ k)
        = ((qtotBlock qtot r)ᵀ * qtotBlock qtot r) j k := by
    intro r
    rw [← key r, Matrix.mul_apply]
    apply Finset.sum_congr rfl
    intro i _
    simp [Matrix.transpose_apply, assembledQ]
  rw [Finset.sum_congr rfl (fun r _ => step1 r)]
  have final : (∑ r : Fin size, ((qtotBlock qtot r)ᵀ * qtotBlock qtot r) j k)
      = (qtotᵀ * qtot) j k := by
    simp only [Matrix.mul_apply, Matrix.transpose_apply, qtotBlock]
    rw [show (Finset.univ : Finset ((_ : Fin size) × Fin w))
        = Finset.univ.sigma (fun _ => Finset.univ) from (Finset.univ_sigma_univ).symm]
    rw [Finset.sum_sigma]
  rw [final, htot]

/-- C6: in exact arithmetic, with the library contracts as hypotheses —
each rank's local QR factor has orthonormal columns, the global QR factor
`q_tot` has orthonormal columns, and the SVD factor `U_tilde` is
orthogonal — the `d × q` basis materialized after `update_model`
(`U_prime[:, :q]` assembled over all ranks) has exactly orthonormal
columns, `Uᵀ U = I_q`; hence any norm of `Uᵀ U − I_q` is 0, below every
tolerance.  (`initialize_model`'s `U` is the library's left singular
factor itself, orthonormal by the same contract.) -/
theorem c6_basis_orthonormal {size w q : ℕ} {y : Fin size → ℕ}
    (qloc : (r : Fin size) → Matrix (Fin (y r)) (Fin w) ℚ)
    (qtot : Matrix ((_ : Fin size) × Fin w) (Fin w) ℚ)
    (Utilde : Matrix (Fin w) (Fin w) ℚ) (hq : q ≤ w)
    (hloc : ∀ r, (qloc r)ᵀ * qloc r = 1)
    (htot : qtotᵀ * qtot = 1)
    (hU : Utildeᵀ * Utilde = 1) :
    (U_new qloc qtot Utilde hq)ᵀ * U_new qloc qtot Utilde hq = 1 :=
  trunc_orth hq _ (mul_orth_cols _ _ (assembledQ_orth qloc qtot hloc htot) hU)

lemma c6_wit_qtot : onesQtotᵀ * onesQtot = 1 := by
  ext j k
  have hjk : j = k := Subsingleton.elim j k
  subst hjk
  rw [Matrix.mul_apply]
  simp [onesQtot, Matrix.transpose_apply, Matrix.one_apply]

/-- Witness for C6: one rank, one row, `w = q = 1`, all factors the
(orthonormal) constant matrices. -/
theorem c6_basis_orthonormal_witness :
    (@U_new 1 1 1 (fun _ => 1) (fun _ => 1) onesQtot 1 (le_refl 1))ᵀ
      * @U_new 1 1 1 (fun _ => 1) (fun _ => 1) onesQtot 1 (le_refl 1) = 1 :=
  c6_basis_orthonormal (fun _ => 1) onesQtot 1 (le_refl 1)
    (fun _ => by simp) c6_wit_qtot (by simp)
